import Mathlib

/- Shallow embedding of the MSG <-> TXT codec from Tools/duomsgEN.pyw and
   Tools/duomsgJP (Experimental).pyw.  Text is modelled as List Char, byte
   strings as List Nat (one Nat per byte, big-endian 16-bit words), and
   fallible operations (Python exceptions) return Option.  Python chr is
   modelled by Char.ofNat; all characters reached by the theorems below lie
   in the valid scalar range, where the two functions agree.  Python dicts
   are modelled as insertion-ordered association lists. -/

/-- Python str.startswith for char lists: does the second list begin with the
first?  text.startswith(tag, i) together with the in-range check on the
following character is rendered as startswith (tag ++ marker) (text.drop i). -/
def startswith : List Char → List Char → Bool
  | [], _ => true
  | _ :: _, [] => false
  | p :: ps, c :: cs => p == c && startswith ps cs

/-- Big-endian 16-bit word from two bytes, as read by struct.unpack of two
consecutive bytes with format greater-than H. -/
def u16be (hi lo : Nat) : Nat := hi * 256 + lo

/-- struct.pack of one 16-bit big-endian word: two bytes, or failure
(struct.error) when the value does not fit in 16 bits. -/
def pack_u16 (n : Nat) : Option (List Nat) :=
  if n < 65536 then some [n / 256, n % 256] else none

/-- struct.pack of a run of 16-bit big-endian words (format greater-than nH):
fails if any word is out of range. -/
def packUnits : List Nat → Option (List Nat)
  | [] => some []
  | u :: rest => do
    let b ← pack_u16 u
    let bs ← packUnits rest
    pure (b ++ bs)

/-- struct.unpack of a byte string into 16-bit big-endian words; fails
(struct.error) when the byte count is odd (format size mismatch). -/
def bytesToUnits : List Nat → Option (List Nat)
  | [] => some []
  | [_] => none
  | a :: b :: rest => do
    let us ← bytesToUnits rest
    pure (u16be a b :: us)

/-- Python slice data[start:stop]: clamped, empty when start is past stop. -/
def pySlice (data : List Nat) (start stop : Nat) : List Nat :=
  (data.take stop).drop start

/-- The block-table reading loop shared by both tools: for each of count
entries, fail (Truncated block table) when fewer than 4 bytes remain,
otherwise read two big-endian 16-bit words (offset, length). -/
def read_entries_loop (data : List Nat) : Nat → Nat → Option (List (Nat × Nat))
  | _, 0 => some []
  | off, k + 1 =>
    if off + 4 > data.length then none
    else do
      let rest ← read_entries_loop data (off + 4) k
      pure ((u16be (data.getD off 0) (data.getD (off + 1) 0),
             u16be (data.getD (off + 2) 0) (data.getD (off + 3) 0)) :: rest)

/-- The entry-building loop of both encoders: each block is assigned the
running offset (in code units) and its own length. -/
def entriesOf : List (List Nat) → Nat → List (Nat × Nat)
  | [], _ => []
  | us :: rest, cur_off => (cur_off, us.length) :: entriesOf rest (cur_off + us.length)

/-- struct.pack of the entry table: two 16-bit words per entry. -/
def packEntries : List (Nat × Nat) → Option (List Nat)
  | [] => some []
  | e :: rest => do
    let o ← pack_u16 e.1
    let l ← pack_u16 e.2
    let bs ← packEntries rest
    pure (o ++ l ++ bs)

/-- The line-terminator characters recognized by Python str.splitlines. -/
def pyIsLineBreak (c : Char) : Bool :=
  c == '\n' || c == '\r' || c == '\x0B' || c == '\x0C' ||
  c == '\x1C' || c == '\x1D' || c == '\x1E' ||
  c == '\x85' || c == ' ' || c == ' '

/-- Worker for Python str.splitlines: accumulates the current line in
reverse; a carriage return followed by a line feed counts as one break; the
final line is kept only when non-empty (no terminator at end of input). -/
def splitlinesGo : List Char → List Char → List (List Char)
  | acc, [] => if acc.isEmpty then [] else [acc.reverse]
  | acc, '\r' :: '\n' :: rest => acc.reverse :: splitlinesGo [] rest
  | acc, c :: rest =>
    if pyIsLineBreak c then acc.reverse :: splitlinesGo [] rest
    else splitlinesGo (c :: acc) rest

/-- Python str.splitlines on char lists. -/
def splitlines (s : List Char) : List (List Char) := splitlinesGo [] s

/-- The characters Python str.strip removes (str.isspace characters). -/
def pyIsSpace (c : Char) : Bool :=
  c == ' ' || c == '\t' || c == '\n' || c == '\r' || c == '\x0B' || c == '\x0C' ||
  c == '\x1C' || c == '\x1D' || c == '\x1E' || c == '\x1F' ||
  c == '\x85' || c == '\xA0' || c == ' ' ||
  c == ' ' || c == ' ' || c == ' ' || c == ' ' ||
  c == ' ' || c == ' ' || c == ' ' || c == ' ' ||
  c == ' ' || c == ' ' || c == ' ' ||
  c == ' ' || c == ' ' || c == ' ' || c == ' ' || c == '　'

/-- Python str.strip with no argument: whitespace removed from both ends. -/
def pyStrip (s : List Char) : List Char :=
  ((s.dropWhile pyIsSpace).reverse.dropWhile pyIsSpace).reverse

/-- Python str.rstrip applied with a bare line feed argument. -/
def rstripNL (s : List Char) : List Char :=
  (s.reverse.dropWhile (fun c => c == '\n')).reverse

/-- Python str.join on char lists: the separator between consecutive items. -/
def pyJoin (sep : List Char) : List (List Char) → List Char
  | [] => []
  | [x] => x
  | x :: xs => x ++ sep ++ pyJoin sep xs

/-- Splitting on bare line feeds only (used to speak about the lines of a
block whose only line terminators are line feeds); the empty text has one
empty line, and a trailing line feed yields a trailing empty line. -/
def splitNL : List Char → List (List Char)
  | [] => [[]]
  | c :: rest =>
    if c = '\n' then [] :: splitNL rest
    else
      match splitNL rest with
      | [] => [[c]]
      | l :: ls => (c :: l) :: ls

namespace duomsgEN

/- SETTINGS block of duomsgEN.pyw. -/
def BLOCK_SEPARATOR : List Char := ['#', '#', '#']
def TAG_NEWLINES : Bool := true
def NL_TAG_8016 : List Char := ['/', 'n']
def NL_TAG_000A : List Char := ['/', 'n', 'n']
def DEFAULT_ENCODE_NEWLINE : Nat := 0x8016
def NEWLINE_000A : Nat := 0x000A
def NEWLINE_8016 : Nat := 0x8016

/-- duomsgEN._decode_units_to_text: convert 16-bit code units to text.  With
tag_newlines, the newline tag is appended immediately before each line
break; units at or above 0x80 render as the character 0x80 below them,
smaller units render as their own character. -/
def _decode_units_to_text (tag_newlines : Bool) : List Nat → List Char
  | [] => []
  | v :: rest =>
    (if v = NEWLINE_000A then (if tag_newlines then NL_TAG_000A else []) ++ ['\n']
     else if v = NEWLINE_8016 then (if tag_newlines then NL_TAG_8016 else []) ++ ['\n']
     else if 0x80 ≤ v then [Char.ofNat (v - 0x80)]
     else [Char.ofNat v]) ++ _decode_units_to_text tag_newlines rest

/-- duomsgEN._encode_text_to_units: convert text back into 16-bit code units.
The scan checks, in source order, for NL_TAG_8016 immediately followed by a
line break (requiring the break to be in range), then NL_TAG_000A followed
by a line break, then a bare line break (which becomes
default_newline_code); lowercase ASCII letters are stored at
codepoint + 0x80, everything else raw.  The overlapping startswith checks
of the source (guarded by the constant TAG_NEWLINES = True) are rendered as
ordered list patterns, which coincide with them because the two tags differ
at the character after the shared prefix. -/
def _encode_text_to_units (default_newline_code : Nat) : List Char → List Nat
  | [] => []
  | '/' :: 'n' :: '\n' :: rest =>
    NEWLINE_8016 :: _encode_text_to_units default_newline_code rest
  | '/' :: 'n' :: 'n' :: '\n' :: rest =>
    NEWLINE_000A :: _encode_text_to_units default_newline_code rest
  | c :: rest =>
    if c = '\n' then
      default_newline_code :: _encode_text_to_units default_newline_code rest
    else if 'a' ≤ c ∧ c ≤ 'z' then
      (c.toNat + 0x80) :: _encode_text_to_units default_newline_code rest
    else
      c.toNat :: _encode_text_to_units default_newline_code rest

/-- The per-entry body of duomsgEN.decode_msg_to_blocks: check
text_start ≤ start ≤ end ≤ byte length (Invalid block offset/length on
violation) and decode the sliced code units. -/
def decodeEntryEN (data : List Nat) (tag_newlines : Bool) (text_start : Nat)
    (e : Nat × Nat) : Option (List Char) :=
  if text_start ≤ text_start + e.1 * 2 ∧
      text_start + e.1 * 2 ≤ text_start + (e.1 + e.2) * 2 ∧
      text_start + (e.1 + e.2) * 2 ≤ data.length then do
    let units ← bytesToUnits
      (pySlice data (text_start + e.1 * 2) (text_start + (e.1 + e.2) * 2))
    pure (_decode_units_to_text tag_newlines units)
  else none

/-- duomsgEN.decode_msg_to_blocks: parse the header and block table (the
text area starts at 4 + 4 x count), then decode every entry with the
bounds-checked per-entry body. -/
def decode_msg_to_blocks (data : List Nat) (tag_newlines : Bool) :
    Option (List (List Char)) :=
  if data.length < 4 then none
  else
    match read_entries_loop data 4 (u16be (data.getD 2 0) (data.getD 3 0)) with
    | none => none
    | some entries =>
      entries.mapM
        (decodeEntryEN data tag_newlines
          (4 + 4 * u16be (data.getD 2 0) (data.getD 3 0)))

/-- duomsgEN.encode_blocks_to_msg: encode each block, build the running
entry table, then serialize text area, entry table and the 4-byte header
whose size field is recomputed as 4 + table bytes + text bytes. -/
def encode_blocks_to_msg (blocks : List (List Char))
    (default_newline_code : Nat) : Option (List Nat) := do
  let unitLists := blocks.map (_encode_text_to_units default_newline_code)
  let all_units := unitLists.flatten
  let entries := entriesOf unitLists 0
  let text_bytes ← packUnits all_units
  let header_table ← packEntries entries
  let full_size := 4 + header_table.length + text_bytes.length
  let header ← pack_u16 full_size
  let cnt ← pack_u16 entries.length
  pure (header ++ cnt ++ header_table ++ text_bytes)

/-- duomsgEN.split_txt_into_blocks, the per-line step: a line whose stripped
form equals the separator closes the current block. -/
def splitStep (pc : List (List Char) × List (List Char)) (line : List Char) :
    List (List Char) × List (List Char) :=
  if pyStrip line = BLOCK_SEPARATOR then (pc.1 ++ [pyJoin ['\n'] pc.2], [])
  else (pc.1, pc.2 ++ [line])

/-- duomsgEN.split_txt_into_blocks: split a TXT document into blocks on
separator lines; a leftover partial block (or an empty result) is appended,
and a trailing empty block from a final separator is dropped unless it is
the only block. -/
def split_txt_into_blocks (txt : List Char) : List (List Char) :=
  let r := (splitlines txt).foldl splitStep ([], [])
  let parts := if ¬ r.2.isEmpty ∨ r.1.isEmpty then r.1 ++ [pyJoin ['\n'] r.2] else r.1
  if ¬ parts.isEmpty ∧ parts.getLast? = some [] ∧ 1 < parts.length then
    parts.dropLast
  else parts

/-- duomsgEN.make_txt_from_blocks: join the blocks, each with trailing line
feeds removed, with the separator on its own line, terminated by one final
separator line. -/
def make_txt_from_blocks (blocks : List (List Char)) : List Char :=
  pyJoin ('\n' :: BLOCK_SEPARATOR ++ ['\n']) (blocks.map rstripNL) ++
    '\n' :: BLOCK_SEPARATOR ++ ['\n']

/-- A well-formed piece of taggable Latin text: a single non-newline
character below 0x80, or one of the two recognized newline tags immediately
followed by a line break. -/
inductive LatinSeg : Type
  | plain (c : Char) : LatinSeg
  | nl8016 : LatinSeg
  | nl000A : LatinSeg

def segText : LatinSeg → List Char
  | .plain c => [c]
  | .nl8016 => NL_TAG_8016 ++ ['\n']
  | .nl000A => NL_TAG_000A ++ ['\n']

def segValid : LatinSeg → Bool
  | .plain c => decide (c.toNat < 0x80) && c != '\n'
  | .nl8016 => true
  | .nl000A => true

def render (segs : List LatinSeg) : List Char := (segs.map segText).flatten

end duomsgEN

namespace duomsgJP

/- SETTINGS block of duomsgJP (Experimental).pyw. -/
def BLOCK_SEPARATOR : List Char := ['#', '#', '#']
def TAG_NEWLINES : Bool := true
def NL_TAG_8016 : List Char := ['<', 'N', 'L', '_', '8', '0', '1', '6', '>']
def NL_TAG_000A : List Char := ['<', 'N', 'L', '_', '0', '0', '0', 'A', '>']
def DEFAULT_ENCODE_NEWLINE : Nat := 0x8016
def ENCODE_UNKNOWN_POLICY : List Char := ['e', 'r', 'r', 'o', 'r']
def NEWLINE_000A : Nat := 0x000A
def NEWLINE_8016 : Nat := 0x8016

def _is_ascii_printable (u : Nat) : Bool :=
  (decide (0x20 ≤ u) && decide (u ≤ 0x7E)) || u == 0x09

/-- duomsgJP.read_msg_entries_and_textstart: parse the 4-byte header and the
block table, returning the entries and the byte offset of the text area. -/
def read_msg_entries_and_textstart (data : List Nat) :
    Option (List (Nat × Nat) × Nat) :=
  if data.length < 4 then none
  else do
    let count := u16be (data.getD 2 0) (data.getD 3 0)
    let entries ← read_entries_loop data 4 count
    pure (entries, 4 + 4 * count)

/-- duomsgJP._read_all_blocks_units: slice each entry's byte range out of
the text area with no bounds validation (Python slicing clamps silently)
and unpack it into code units. -/
def _read_all_blocks_units (data : List Nat) : Option (List (List Nat)) := do
  let r ← read_msg_entries_and_textstart data
  r.1.mapM (fun e =>
    bytesToUnits (pySlice data (r.2 + e.1 * 2) (r.2 + (e.1 + e.2) * 2)))

/-- Python format string U+ with width-4 zero-padded uppercase hex, wrapped
in angle brackets: the visible placeholder of the mapped decoder. -/
def placeholderU (u : Nat) : List Char :=
  let ds := (Nat.toDigits 16 u).map Char.toUpper
  ['<', 'U', '+'] ++ List.replicate (4 - ds.length) '0' ++ ds ++ ['>']

/-- The per-unit step of duomsgJP.decode_msg_to_blocks_with_map: newline
codes as tagged line breaks, then the learned table, then the English
fallback restricted to units at or above 0x80 whose shifted value is ASCII
printable, else the visible placeholder. -/
def decodeUnitWithMap (unit_to_char : List (Nat × Char)) (tag_newlines : Bool)
    (u : Nat) : List Char :=
  if u = NEWLINE_000A then (if tag_newlines then NL_TAG_000A else []) ++ ['\n']
  else if u = NEWLINE_8016 then (if tag_newlines then NL_TAG_8016 else []) ++ ['\n']
  else
    match List.lookup u unit_to_char with
    | some ch => [ch]
    | none =>
      if 0x80 ≤ u ∧ _is_ascii_printable (u - 0x80) = true then
        [Char.ofNat (u - 0x80)]
      else placeholderU u

/-- The inner unit loop of duomsgJP.decode_msg_to_blocks_with_map. -/
def decode_units_with_map (unit_to_char : List (Nat × Char))
    (tag_newlines : Bool) : List Nat → List Char
  | [] => []
  | u :: rest =>
    decodeUnitWithMap unit_to_char tag_newlines u ++
      decode_units_with_map unit_to_char tag_newlines rest

/-- duomsgJP.decode_msg_to_blocks_with_map on the container bytes: parse,
slice each entry (no bounds validation) and decode through the mapping. -/
def decode_msg_to_blocks_with_map (data : List Nat)
    (unit_to_char : List (Nat × Char)) (tag_newlines : Bool) :
    Option (List (List Char)) := do
  let r ← read_msg_entries_and_textstart data
  r.1.mapM (fun e => do
    let units ← bytesToUnits (pySlice data (r.2 + e.1 * 2) (r.2 + (e.1 + e.2) * 2))
    pure (decode_units_with_map unit_to_char tag_newlines units))

/-- duomsgJP._decode_units_english: the English-only rule of the JP tool;
unlike the EN tool it un-shifts a unit at or above 0x80 only when the
shifted value is ASCII printable. -/
def _decode_units_english (tag_newlines : Bool) : List Nat → List Char
  | [] => []
  | v :: rest =>
    (if v = NEWLINE_000A then (if tag_newlines then NL_TAG_000A else []) ++ ['\n']
     else if v = NEWLINE_8016 then (if tag_newlines then NL_TAG_8016 else []) ++ ['\n']
     else if 0x80 ≤ v ∧ _is_ascii_printable (v - 0x80) = true then
       [Char.ofNat (v - 0x80)]
     else [Char.ofNat v]) ++ _decode_units_english tag_newlines rest

/-- duomsgJP.decode_msg_to_blocks_english: parse and decode each sliced
entry under the English rule, with no bounds validation on the slices. -/
def decode_msg_to_blocks_english (data : List Nat) (tag_newlines : Bool) :
    Option (List (List Char)) := do
  let r ← read_msg_entries_and_textstart data
  r.1.mapM (fun e => do
    let units ← bytesToUnits (pySlice data (r.2 + e.1 * 2) (r.2 + (e.1 + e.2) * 2))
    pure (_decode_units_english tag_newlines units))

/-- The per-block character loop of duomsgJP.encode_blocks_with_map: tagged
newlines first (the source's startswith checks, guarded by the constant
TAG_NEWLINES = True, rendered as ordered disjoint patterns), then bare line
breaks, then the learned glyph table, then the lowercase English fallback;
any other character is handled by the unknown-glyph policy: error raises
(none), placeholder stores 0x3F, skip drops the character, and any other
policy string stores the raw codepoint. -/
def encUnitsMapGo (char_to_unit : List (Char × Nat)) (policy : List Char)
    (default_newline : Nat) : Nat → List Char → Option (List Nat)
  | _, [] => some []
  | 0, _ :: _ => none
  | fuel + 1, c :: rest =>
    if startswith (NL_TAG_8016 ++ ['\n']) (c :: rest) then do
      let us ← encUnitsMapGo char_to_unit policy default_newline fuel
        (List.drop (NL_TAG_8016.length + 1) (c :: rest))
      pure (NEWLINE_8016 :: us)
    else if startswith (NL_TAG_000A ++ ['\n']) (c :: rest) then do
      let us ← encUnitsMapGo char_to_unit policy default_newline fuel
        (List.drop (NL_TAG_000A.length + 1) (c :: rest))
      pure (NEWLINE_000A :: us)
    else if c = '\n' then do
      let us ← encUnitsMapGo char_to_unit policy default_newline fuel rest
      pure (default_newline :: us)
    else
      match List.lookup c char_to_unit with
      | some u => do
        let us ← encUnitsMapGo char_to_unit policy default_newline fuel rest
        pure (u :: us)
      | none =>
        if 'a' ≤ c ∧ c ≤ 'z' then do
          let us ← encUnitsMapGo char_to_unit policy default_newline fuel rest
          pure ((c.toNat + 0x80) :: us)
        else if policy = ['e', 'r', 'r', 'o', 'r'] then none
        else if policy = ['p', 'l', 'a', 'c', 'e', 'h', 'o', 'l', 'd', 'e', 'r'] then do
          let us ← encUnitsMapGo char_to_unit policy default_newline fuel rest
          pure (0x3F :: us)
        else if policy = ['s', 'k', 'i', 'p'] then
          encUnitsMapGo char_to_unit policy default_newline fuel rest
        else do
          let us ← encUnitsMapGo char_to_unit policy default_newline fuel rest
          pure (c.toNat :: us)

/-- The loop entry point: the Python while loop advances its index i by at
least one character per iteration, so the loop variant (len - i) is the
explicit countdown of encUnitsMapGo, initialized to the block length (the
zero-fuel case of the worker is never reached from here). -/
def encUnitsMap (char_to_unit : List (Char × Nat)) (policy : List Char)
    (default_newline : Nat) (block : List Char) : Option (List Nat) :=
  encUnitsMapGo char_to_unit policy default_newline block.length block

/-- duomsgJP.encode_blocks_with_map: encode every block through the mapping
(failing the whole operation if any block fails), then serialize with the
same running entry table and recomputed header as the English encoder. -/
def encode_blocks_with_map (blocks : List (List Char))
    (char_to_unit : List (Char × Nat)) (policy : List Char)
    (default_newline : Nat) : Option (List Nat) := do
  let unitLists ← blocks.mapM (encUnitsMap char_to_unit policy default_newline)
  let all_units := unitLists.flatten
  let entries := entriesOf unitLists 0
  let text_bytes ← packUnits all_units
  let header_table ← packEntries entries
  let full_size := 4 + header_table.length + text_bytes.length
  let header ← pack_u16 full_size
  let cnt ← pack_u16 entries.length
  pure (header ++ cnt ++ header_table ++ text_bytes)

/-- Removal of every occurrence of NL_TAG_8016, as by str.replace with an
empty replacement (left to right, non-overlapping). -/
def _remove_tag8016 : List Char → List Char
  | [] => []
  | '<' :: 'N' :: 'L' :: '_' :: '8' :: '0' :: '1' :: '6' :: '>' :: rest =>
    _remove_tag8016 rest
  | c :: rest => c :: _remove_tag8016 rest

/-- Removal of every occurrence of NL_TAG_000A, as by str.replace with an
empty replacement. -/
def _remove_tag000A : List Char → List Char
  | [] => []
  | '<' :: 'N' :: 'L' :: '_' :: '0' :: '0' :: '0' :: 'A' :: '>' :: rest =>
    _remove_tag000A rest
  | c :: rest => c :: _remove_tag000A rest

/-- duomsgJP._strip_nl_tags_keep_newline: delete both newline tags, keeping
the line-break characters themselves. -/
def _strip_nl_tags_keep_newline (s : List Char) : List Char :=
  _remove_tag000A (_remove_tag8016 s)

/-- duomsgJP.split_txt_into_blocks (identical to the English tool's). -/
def split_txt_into_blocks (txt : List Char) : List (List Char) :=
  let r := (splitlines txt).foldl duomsgEN.splitStep ([], [])
  let parts := if ¬ r.2.isEmpty ∨ r.1.isEmpty then r.1 ++ [pyJoin ['\n'] r.2] else r.1
  if ¬ parts.isEmpty ∧ parts.getLast? = some [] ∧ 1 < parts.length then
    parts.dropLast
  else parts

/-- One observation for a Counter: the count of ch is incremented, a new
character is appended at the end (Python dict insertion order). -/
def bumpChar : List (Char × Nat) → Char → List (Char × Nat)
  | [], ch => [(ch, 1)]
  | (c, n) :: rest, ch =>
    if c = ch then (c, n + 1) :: rest else (c, n) :: bumpChar rest ch

/-- One observation for the defaultdict(Counter) of the trainer: the counter
of unit u is updated, a new unit is appended at the end. -/
def bumpCounts : List (Nat × List (Char × Nat)) → Nat → Char →
    List (Nat × List (Char × Nat))
  | [], u, ch => [(u, [(ch, 1)])]
  | (v, ctr) :: rest, u, ch =>
    if v = u then (v, bumpChar ctr ch) :: rest
    else (v, ctr) :: bumpCounts rest u ch

/-- The per-block alignment walk of duomsgJP.learn_mapping_from_pair.  The
reference cursor j is modelled by the remaining suffix of the reference
text: a newline-coded unit consumes one line-break character if present;
any other unit first skips line breaks, stops the block (break) when the
reference is exhausted, and otherwise records one observation. -/
def observeBlock : List Char → List Nat → List (Nat × List (Char × Nat)) →
    List (Nat × List (Char × Nat))
  | _, [], counts => counts
  | ref, u :: rest, counts =>
    if u = NEWLINE_000A ∨ u = NEWLINE_8016 then
      if ref.head? = some '\n' then observeBlock ref.tail rest counts
      else observeBlock ref rest counts
    else
      match ref.dropWhile (fun c => c == '\n') with
      | [] => counts
      | ch :: ref2 => observeBlock ref2 rest (bumpCounts counts u ch)

/-- Counter.most_common(1), kept abstract in the key type: the
first-encountered entry with the maximal count (Python's stable ordering),
or none on an empty counter (the trainer only builds non-empty counters). -/
def mostCommonGo {α : Type} : α × Nat → List (α × Nat) → α × Nat
  | q, [] => q
  | q, p :: rest => mostCommonGo (if q.2 < p.2 then p else q) rest

def mostCommon1 {α : Type} : List (α × Nat) → Option (α × Nat)
  | [] => none
  | p :: rest => some (mostCommonGo p rest)

/-- One addition of n observations to the reverse Counter of a character. -/
def bumpRevBy : List (Nat × Nat) → Nat → Nat → List (Nat × Nat)
  | [], u, n => [(u, n)]
  | (v, m) :: rest, u, n =>
    if v = u then (v, m + n) :: rest else (v, m) :: bumpRevBy rest u n

/-- One update of the reverse defaultdict(Counter): rev_counts[ch][u] += n. -/
def bumpRev : List (Char × List (Nat × Nat)) → Char → Nat → Nat →
    List (Char × List (Nat × Nat))
  | [], ch, u, n => [(ch, [(u, n)])]
  | (d, ctr) :: rest, ch, u, n =>
    if d = ch then (d, bumpRevBy ctr u n) :: rest
    else (d, ctr) :: bumpRev rest ch u n

/-- The reverse-count accumulation of duomsgJP.learn_mapping_from_pair:
for every unit's counter entry (ch, n), add n to rev_counts[ch][u]. -/
def revCountsOf (counts : List (Nat × List (Char × Nat))) :
    List (Char × List (Nat × Nat)) :=
  counts.foldl
    (fun acc p => p.2.foldl (fun acc2 q => bumpRev acc2 q.1 p.1 q.2) acc) []

/-- duomsgJP.learn_mapping_from_pair on the container bytes and reference
text: read all block unit lists, split the reference into blocks, fail when
the block counts differ, then accumulate observations block by block and
resolve each direction with most_common(1).  (The source indexes
most_common(1)[0] directly; every counter it builds is non-empty, which the
filterMap below makes explicit.) -/
def learn_mapping_from_pair (msgData : List Nat) (txtText : List Char) :
    Option (List (Nat × Char) × List (Char × Nat)) := do
  let msg_blocks_units ← _read_all_blocks_units msgData
  let txt_blocks := split_txt_into_blocks txtText
  if msg_blocks_units.length ≠ txt_blocks.length then none
  else
    let counts := (msg_blocks_units.zip txt_blocks).foldl
      (fun cs p => observeBlock (_strip_nl_tags_keep_newline p.2) p.1 cs) []
    let unit_to_char := counts.filterMap
      (fun p => (mostCommon1 p.2).map (fun q => (p.1, q.1)))
    let char_to_unit := (revCountsOf counts).filterMap
      (fun p => (mostCommon1 p.2).map (fun q => (p.1, q.1)))
    some (unit_to_char, char_to_unit)

/-- The persisted mapping artifact of duomsgJP.save_mapping: both tables and
the count of learned units (the source/provenance paths are file-system
identities outside the embedding). -/
structure MapArtifact where
  unit_to_char : List (Nat × Char)
  char_to_unit : List (Char × Nat)
  count : Nat
deriving DecidableEq

def save_mapping (u2c : List (Nat × Char)) (c2u : List (Char × Nat)) :
    MapArtifact :=
  ⟨u2c, c2u, u2c.length⟩

/-- duomsgJP.auto_train_if_possible, reduced to its training core: train on
the pair and persist the artifact; any failure in training yields no
artifact at all. -/
def auto_train_if_possible (msgData : List Nat) (txtText : List Char) :
    Option MapArtifact :=
  (learn_mapping_from_pair msgData txtText).map (fun p => save_mapping p.1 p.2)

end duomsgJP

/-- Specification predicate for the most_common(1) tie-break policy: (k, v)
is the first-encountered maximal entry of the counter l, in insertion
order — no entry has a larger count and every entry before the chosen one
has a strictly smaller count. -/
def firstMaxAt {α : Type} (l : List (α × Nat)) (k : α) (v : Nat) : Prop :=
  (∀ p ∈ l, p.2 ≤ v) ∧
  ∃ i, ∃ h : i < l.length, l.get ⟨i, h⟩ = (k, v) ∧ ∀ p ∈ l.take i, p.2 < v

/- ------------------------------------------------------------------ -/
/- Theorems.                                                           -/
/- ------------------------------------------------------------------ -/

namespace duomsgEN

/-- The fall-through step of the encoder: when the text does not start with a
tagged newline, one character is consumed and encoded by the Latin rule
(bare line break, lowercase at +0x80, or raw codepoint). -/
theorem enc_cons_default (d : Nat) (c : Char) (rest : List Char)
    (h1 : ∀ r : List Char, c = '/' → rest = 'n' :: '\n' :: r → False)
    (h2 : ∀ r : List Char, c = '/' → rest = 'n' :: 'n' :: '\n' :: r → False) :
    _encode_text_to_units d (c :: rest) =
      (if c = '\n' then d
       else if 'a' ≤ c ∧ c ≤ 'z' then c.toNat + 0x80
       else c.toNat) :: _encode_text_to_units d rest := by
  rw [_encode_text_to_units.eq_4 d c rest h1 h2]
  split
  · rfl
  · split <;> rfl

theorem render_cons (s : LatinSeg) (l : List LatinSeg) :
    render (s :: l) = segText s ++ render l := by
  simp [render]

theorem render_head_ne_nl (segs : List LatinSeg)
    (hv : ∀ s ∈ segs, segValid s = true) :
    ∀ t, render segs ≠ '\n' :: t := by
  cases segs with
  | nil => intro t h; simp [render] at h
  | cons s l =>
    intro t h
    rw [render_cons] at h
    cases s with
    | plain c =>
      have hc : segValid (.plain c) = true := hv _ (List.mem_cons_self _ _)
      simp [segValid] at hc
      simp [segText] at h
      exact hc.2 h.1
    | nl8016 => simp [segText, NL_TAG_8016] at h
    | nl000A => simp [segText, NL_TAG_000A] at h

theorem render_ne_tag1 (segs : List LatinSeg)
    (hv : ∀ s ∈ segs, segValid s = true) :
    ∀ t, render segs ≠ 'n' :: '\n' :: t := by
  cases segs with
  | nil => intro t h; simp [render] at h
  | cons s l =>
    intro t h
    rw [render_cons] at h
    have hl : ∀ s ∈ l, segValid s = true :=
      fun x hx => hv x (List.mem_cons_of_mem _ hx)
    cases s with
    | plain c =>
      simp [segText] at h
      exact render_head_ne_nl l hl t h.2
    | nl8016 => simp [segText, NL_TAG_8016] at h
    | nl000A => simp [segText, NL_TAG_000A] at h

theorem render_ne_tag2 (segs : List LatinSeg)
    (hv : ∀ s ∈ segs, segValid s = true) :
    ∀ t, render segs ≠ 'n' :: 'n' :: '\n' :: t := by
  cases segs with
  | nil => intro t h; simp [render] at h
  | cons s l =>
    intro t h
    rw [render_cons] at h
    have hl : ∀ s ∈ l, segValid s = true :=
      fun x hx => hv x (List.mem_cons_of_mem _ hx)
    cases s with
    | plain c =>
      simp [segText] at h
      exact render_ne_tag1 l hl t h.2
    | nl8016 => simp [segText, NL_TAG_8016] at h
    | nl000A => simp [segText, NL_TAG_000A] at h

/-- Encode-then-decode identity on well-formed tagged Latin text. -/
theorem dec_enc_render (segs : List LatinSeg)
    (hv : ∀ s ∈ segs, segValid s = true) (d : Nat) :
    _decode_units_to_text true (_encode_text_to_units d (render segs))
      = render segs := by
  induction segs with
  | nil => rfl
  | cons s l ih =>
    have hl : ∀ x ∈ l, segValid x = true :=
      fun x hx => hv x (List.mem_cons_of_mem _ hx)
    have hs : segValid s = true := hv s (List.mem_cons_self _ _)
    cases s with
    | nl8016 =>
      rw [render_cons]
      show _decode_units_to_text true
        (_encode_text_to_units d ('/' :: 'n' :: '\n' :: render l)) = _
      rw [_encode_text_to_units.eq_2]
      simp [_decode_units_to_text, NEWLINE_8016, NEWLINE_000A, NL_TAG_8016,
        segText, ih hl]
    | nl000A =>
      rw [render_cons]
      show _decode_units_to_text true
        (_encode_text_to_units d ('/' :: 'n' :: 'n' :: '\n' :: render l)) = _
      rw [_encode_text_to_units.eq_3]
      simp [_decode_units_to_text, NEWLINE_8016, NEWLINE_000A, NL_TAG_000A,
        segText, ih hl]
    | plain c =>
      have hc : c.toNat < 0x80 ∧ c ≠ '\n' := by
        simpa [segValid] using hs
      rw [render_cons]
      show _decode_units_to_text true
        (_encode_text_to_units d (c :: render l)) = _
      rw [enc_cons_default d c (render l)
        (fun r hcs hr => render_ne_tag1 l hl r hr)
        (fun r hcs hr => render_ne_tag2 l hl r hr)]
      have hcnl : ¬ c = '\n' := hc.2
      by_cases hlc : 'a' ≤ c ∧ c ≤ 'z'
      · have h97 : 97 ≤ c.toNat := hlc.1
        have hne1 : ¬ (c.toNat + 0x80 = NEWLINE_000A) := by
          simp only [NEWLINE_000A]; omega
        have hne2 : ¬ (c.toNat + 0x80 = NEWLINE_8016) := by
          simp only [NEWLINE_8016]
          omega
        have hge : 0x80 ≤ c.toNat + 0x80 := by omega
        simp [_decode_units_to_text, hcnl, hlc, hne1, hne2, hge,
          Nat.add_sub_cancel, Char.ofNat_toNat, segText, ih hl]
      · have hne10 : ¬ (c.toNat = NEWLINE_000A) := by
          simp only [NEWLINE_000A]
          intro h
          exact hcnl (by rw [← Char.ofNat_toNat c, h])
        have hne2 : ¬ (c.toNat = NEWLINE_8016) := by
          simp only [NEWLINE_8016]; omega
        have hnge : ¬ (0x80 ≤ c.toNat) := by omega
        simp [_decode_units_to_text, hcnl, hlc, hne10, hne2, hnge,
          Char.ofNat_toNat, segText, ih hl]

end duomsgEN

/-- C1 as stated is false: for the text consisting of one bare line break
(an allowed newline marker by the claim), encoding emits the default
newline code 0x8016 and decoding (with tagging enabled) prints the tag
before the line break, so the round trip does not return the input. -/
theorem C1_counterexample :
    ¬ (duomsgEN._decode_units_to_text true
        (duomsgEN._encode_text_to_units duomsgEN.DEFAULT_ENCODE_NEWLINE ['\n'])
        = ['\n']) := by decide

/-- C1 (amended): for every text assembled from characters below 0x80 other
than the line break and from the two recognized newline tags each
immediately followed by a line break (so every line break in the text is
tagged), decoding the encoded unit sequence with tagging enabled yields the
text again, for any default newline code. -/
theorem C1_roundtrip (segs : List duomsgEN.LatinSeg)
    (hv : ∀ s ∈ segs, duomsgEN.segValid s = true) (d : Nat) :
    duomsgEN._decode_units_to_text true
        (duomsgEN._encode_text_to_units d (duomsgEN.render segs))
      = duomsgEN.render segs :=
  duomsgEN.dec_enc_render segs hv d

/-- Witness for C1: the text Hi followed by a tagged 0x8016 newline
round-trips. -/
theorem C1_witness :
    (∀ s ∈ [duomsgEN.LatinSeg.plain 'H', duomsgEN.LatinSeg.plain 'i',
        duomsgEN.LatinSeg.nl8016], duomsgEN.segValid s = true) ∧
    duomsgEN._decode_units_to_text true
        (duomsgEN._encode_text_to_units 0x8016
          (duomsgEN.render [duomsgEN.LatinSeg.plain 'H',
            duomsgEN.LatinSeg.plain 'i', duomsgEN.LatinSeg.nl8016]))
      = duomsgEN.render [duomsgEN.LatinSeg.plain 'H',
          duomsgEN.LatinSeg.plain 'i', duomsgEN.LatinSeg.nl8016] :=
  ⟨by decide, C1_roundtrip _ (by decide) 0x8016⟩

/-- C2 as stated is false: the decoded text of the six units is
Hello with a tagged 0x8016 newline, but re-encoding stores the lowercase
letter e at 0x65 + 0x80 = 0xE5, not at the raw 0x65 of the original, so
the original unit sequence is not reproduced. -/
theorem C2_counterexample :
    ¬ (duomsgEN._encode_text_to_units 0x8016
        (duomsgEN._decode_units_to_text true [0x48, 0x65, 0xEC, 0xEC, 0xEF, 0x8016])
        = [0x48, 0x65, 0xEC, 0xEC, 0xEF, 0x8016]) := by decide

/-- C2 (amended): the six units decode under the Latin rule to Hello with a
tagged 0x8016 newline; re-encoding that text with default newline 0x8016
yields [0x48, 0xE5, 0xEC, 0xEC, 0xEF, 0x8016], which differs from the
original exactly in storing the lowercase e at 0x65 + 0x80, and which
decodes back to the same text. -/
theorem C2_scenario :
    duomsgEN._decode_units_to_text true [0x48, 0x65, 0xEC, 0xEC, 0xEF, 0x8016]
        = ['H', 'e', 'l', 'l', 'o', '/', 'n', '\n'] ∧
    duomsgEN._encode_text_to_units 0x8016
        ['H', 'e', 'l', 'l', 'o', '/', 'n', '\n']
        = [0x48, 0xE5, 0xEC, 0xEC, 0xEF, 0x8016] ∧
    duomsgEN._decode_units_to_text true [0x48, 0xE5, 0xEC, 0xEC, 0xEF, 0x8016]
        = duomsgEN._decode_units_to_text true [0x48, 0x65, 0xEC, 0xEC, 0xEF, 0x8016] := by
  decide

theorem pack_u16_eq (n : Nat) (bs : List Nat) (h : pack_u16 n = some bs) :
    bs = [n / 256, n % 256] := by
  unfold pack_u16 at h
  split at h
  · exact (Option.some_inj.mp h).symm
  · exact absurd h (by simp)

theorem packUnits_length (l : List Nat) (bs : List Nat)
    (h : packUnits l = some bs) : bs.length = 2 * l.length := by
  induction l generalizing bs with
  | nil =>
    simp only [packUnits, Option.some_inj] at h
    subst h; rfl
  | cons u rest ih =>
    cases hb : pack_u16 u with
    | none => simp [packUnits, hb] at h
    | some b =>
      cases hbs : packUnits rest with
      | none => simp [packUnits, hb, hbs] at h
      | some bs2 =>
        simp only [packUnits, hb, hbs, Option.pure_def, Option.bind_eq_bind, Option.some_bind, Option.some_inj] at h
        have hb' := pack_u16_eq u b hb
        subst h
        simp [hb', ih bs2 hbs]
        omega

theorem packEntries_length (es : List (Nat × Nat)) (bs : List Nat)
    (h : packEntries es = some bs) : bs.length = 4 * es.length := by
  induction es generalizing bs with
  | nil =>
    simp only [packEntries, Option.some_inj] at h
    subst h; rfl
  | cons e rest ih =>
    cases ho : pack_u16 e.1 with
    | none => simp [packEntries, ho] at h
    | some o =>
      cases hl : pack_u16 e.2 with
      | none => simp [packEntries, ho, hl] at h
      | some l =>
        cases hbs : packEntries rest with
        | none => simp [packEntries, ho, hl, hbs] at h
        | some bs2 =>
          simp only [packEntries, ho, hl, hbs, Option.pure_def, Option.bind_eq_bind,
            Option.some_bind, Option.some_inj] at h
          have ho' := pack_u16_eq e.1 o ho
          have hl' := pack_u16_eq e.2 l hl
          subst h
          simp [ho', hl', ih bs2 hbs]
          omega

theorem entriesOf_length (ls : List (List Nat)) (off : Nat) :
    (entriesOf ls off).length = ls.length := by
  induction ls generalizing off with
  | nil => rfl
  | cons x xs ih => simp [entriesOf, ih]

/-- Option-valued mapM preserves length when it succeeds. -/
theorem mapM_option_length {α β : Type} (f : α → Option β) :
    ∀ (l : List α) (l2 : List β), l.mapM f = some l2 → l2.length = l.length := by
  intro l
  induction l with
  | nil =>
    intro l2 hm
    rw [List.mapM_nil] at hm
    simp only [Option.pure_def, Option.some_inj] at hm
    subst hm; rfl
  | cons a rest ih =>
    intro l2 hm
    rw [List.mapM_cons] at hm
    cases he : f a with
    | none =>
      rw [he] at hm
      simp only [Option.pure_def, Option.bind_eq_bind, Option.none_bind] at hm
      exact Option.noConfusion hm
    | some b =>
      rw [he] at hm
      cases hrest : rest.mapM f with
      | none =>
        rw [hrest] at hm
        simp only [Option.pure_def, Option.bind_eq_bind, Option.some_bind,
          Option.none_bind] at hm
        exact Option.noConfusion hm
      | some bs =>
        rw [hrest] at hm
        simp only [Option.pure_def, Option.bind_eq_bind, Option.some_bind,
          Option.some_inj] at hm
        subst hm
        simp [ih bs hrest]

/-- The common serialization tail of both encoders, characterized: the first
two output bytes encode 4 + table bytes + text bytes, which equals
4 + 4 x blockCount + 2 x (sum of unit lengths) and is the output length. -/
theorem encodeFromUnitLists (uls : List (List Nat)) (out : List Nat)
    (h : (do
        let text_bytes ← packUnits uls.flatten
        let header_table ← packEntries (entriesOf uls 0)
        let header ← pack_u16 (4 + header_table.length + text_bytes.length)
        let cnt ← pack_u16 (entriesOf uls 0).length
        pure (header ++ cnt ++ header_table ++ text_bytes) : Option (List Nat))
      = some out) :
    out.take 2 = [(4 + 4 * uls.length + 2 * (uls.map List.length).sum) / 256,
        (4 + 4 * uls.length + 2 * (uls.map List.length).sum) % 256] ∧
    out.length = 4 + 4 * uls.length + 2 * (uls.map List.length).sum := by
  cases htb : packUnits uls.flatten with
  | none =>
    rw [htb] at h
    simp only [Option.pure_def, Option.bind_eq_bind, Option.none_bind] at h
    exact Option.noConfusion h
  | some tb =>
  rw [htb] at h
  simp only [Option.pure_def, Option.bind_eq_bind, Option.some_bind] at h
  cases htab : packEntries (entriesOf uls 0) with
  | none =>
    rw [htab] at h
    simp only [Option.none_bind] at h
    exact Option.noConfusion h
  | some tab =>
  rw [htab] at h
  simp only [Option.some_bind] at h
  cases hh : pack_u16 (4 + tab.length + tb.length) with
  | none =>
    rw [hh] at h
    simp only [Option.none_bind] at h
    exact Option.noConfusion h
  | some h2 =>
  rw [hh] at h
  simp only [Option.some_bind] at h
  cases hc : pack_u16 (entriesOf uls 0).length with
  | none =>
    rw [hc] at h
    simp only [Option.none_bind] at h
    exact Option.noConfusion h
  | some c2 =>
  rw [hc] at h
  simp only [Option.some_bind, Option.some_inj] at h
  subst h
  have hlen_tb : tb.length = 2 * (uls.map List.length).sum := by
    have := packUnits_length _ _ htb
    simpa [List.length_flatten] using this
  have hlen_tab : tab.length = 4 * uls.length := by
    have := packEntries_length _ _ htab
    simpa [entriesOf_length] using this
  have hfs : 4 + tab.length + tb.length
      = 4 + 4 * uls.length + 2 * (uls.map List.length).sum := by omega
  have hh2 := pack_u16_eq _ _ hh
  have hc2 := pack_u16_eq _ _ hc
  rw [hfs] at hh2
  subst hh2
  subst hc2
  constructor
  · simp [List.take]
  · simp
    omega

/-- C5: whenever either encoder produces container bytes, the declared
totalSizeBytes field (the first two bytes, big-endian) equals
4 + 4 x blockCount + 2 x (sum of the encoded block lengths in code units),
and that value equals the byte length of the produced output. -/
theorem C5_header_integrity :
    (∀ (blocks : List (List Char)) (d : Nat) (out : List Nat),
        duomsgEN.encode_blocks_to_msg blocks d = some out →
        out.take 2 =
          [(4 + 4 * blocks.length +
              2 * (blocks.map (fun b => (duomsgEN._encode_text_to_units d b).length)).sum) / 256,
           (4 + 4 * blocks.length +
              2 * (blocks.map (fun b => (duomsgEN._encode_text_to_units d b).length)).sum) % 256] ∧
        out.length =
          4 + 4 * blocks.length +
            2 * (blocks.map (fun b => (duomsgEN._encode_text_to_units d b).length)).sum) ∧
    (∀ (blocks : List (List Char)) (c2u : List (Char × Nat)) (policy : List Char)
        (d : Nat) (uls : List (List Nat)) (out : List Nat),
        blocks.mapM (duomsgJP.encUnitsMap c2u policy d) = some uls →
        duomsgJP.encode_blocks_with_map blocks c2u policy d = some out →
        out.take 2 = [(4 + 4 * blocks.length + 2 * (uls.map List.length).sum) / 256,
            (4 + 4 * blocks.length + 2 * (uls.map List.length).sum) % 256] ∧
        out.length = 4 + 4 * blocks.length + 2 * (uls.map List.length).sum) := by
  constructor
  · intro blocks d out h
    unfold duomsgEN.encode_blocks_to_msg at h
    have := encodeFromUnitLists (blocks.map (duomsgEN._encode_text_to_units d)) out h
    simpa [List.map_map, Function.comp] using this
  · intro blocks c2u policy d uls out hm h
    unfold duomsgJP.encode_blocks_with_map at h
    rw [hm] at h
    simp only [Option.pure_def, Option.bind_eq_bind, Option.some_bind] at h
    have hlen : uls.length = blocks.length := mapM_option_length _ blocks uls hm
    have := encodeFromUnitLists uls out h
    rw [hlen] at this
    exact this

/-- Witness for C5: concrete one-block encodes through both encoders, with
header fields checked. -/
theorem C5_witness :
    duomsgEN.encode_blocks_to_msg [['H', 'i']] 0x8016
        = some [0, 12, 0, 1, 0, 0, 0, 2, 0, 0x48, 0, 0xE9] ∧
    ([0, 12, 0, 1, 0, 0, 0, 2, 0, 0x48, 0, 0xE9] : List Nat).take 2 = [0, 12] ∧
    ([0, 12, 0, 1, 0, 0, 0, 2, 0, 0x48, 0, 0xE9] : List Nat).length = 12 ∧
    duomsgJP.encode_blocks_with_map [['h']] [] ['e', 'r', 'r', 'o', 'r'] 0x8016
        = some [0, 10, 0, 1, 0, 0, 0, 1, 0, 0xE8] ∧
    ([0, 10, 0, 1, 0, 0, 0, 1, 0, 0xE8] : List Nat).take 2 = [0, 10] ∧
    ([0, 10, 0, 1, 0, 0, 0, 1, 0, 0xE8] : List Nat).length = 10 := by
  refine ⟨by decide, ?_, ?_, by decide, ?_, ?_⟩
  · exact ((C5_header_integrity.1 [['H', 'i']] 0x8016 _ (by decide)).1).trans
      (by decide)
  · exact ((C5_header_integrity.1 [['H', 'i']] 0x8016 _ (by decide)).2).trans
      (by decide)
  · exact ((C5_header_integrity.2 [['h']] [] ['e', 'r', 'r', 'o', 'r'] 0x8016
      [[0xE8]] _ (by decide) (by decide)).1).trans (by decide)
  · exact ((C5_header_integrity.2 [['h']] [] ['e', 'r', 'r', 'o', 'r'] 0x8016
      [[0xE8]] _ (by decide) (by decide)).2).trans (by decide)

/-- Option-valued mapM fails whenever the function fails on some element. -/
theorem mapM_option_none {α β : Type} (f : α → Option β) :
    ∀ (l : List α) (e : α), e ∈ l → f e = none → l.mapM f = none := by
  intro l
  induction l with
  | nil => intro e he; exact absurd he (List.not_mem_nil e)
  | cons a rest ih =>
    intro e he hfe
    rw [List.mapM_cons]
    rcases List.mem_cons.mp he with h | h
    · subst h
      rw [hfe]
      simp
    · cases ha : f a with
      | none => simp
      | some b =>
        rw [ih e h hfe]
        simp

/-- C8 as stated is false for the JP tool: on a container whose single
entry declares offset 0 and length 5 with only one code unit of text area,
the JP readers and mapped/English decoders do not fail; they silently
truncate the clamped slice to the single available unit. -/
theorem C8_counterexample :
    duomsgJP.read_msg_entries_and_textstart [0, 10, 0, 1, 0, 0, 0, 5, 0, 0x48]
      = some ([(0, 5)], 8) ∧
    (([0, 10, 0, 1, 0, 0, 0, 5, 0, 0x48] : List Nat).length - 8) / 2 < 0 + 5 ∧
    duomsgJP._read_all_blocks_units [0, 10, 0, 1, 0, 0, 0, 5, 0, 0x48]
      = some [[0x48]] ∧
    duomsgJP.decode_msg_to_blocks_english [0, 10, 0, 1, 0, 0, 0, 5, 0, 0x48] true
      = some [['H']] ∧
    duomsgJP.decode_msg_to_blocks_with_map [0, 10, 0, 1, 0, 0, 0, 5, 0, 0x48] [] true
      = some [['<', 'U', '+', '0', '0', '4', '8', '>']] := by
  decide

/-- C8 (amended): only the English tool's decode_msg_to_blocks validates
block bounds: whenever the parsed table contains an entry whose byte range
extends past the end of the data, the whole decode fails (the JP tool's
decoders, per the counterexample, slice without validation and silently
truncate). -/
theorem C8_en_bounds (data : List Nat) (tag : Bool) (entries : List (Nat × Nat))
    (hent : read_entries_loop data 4 (u16be (data.getD 2 0) (data.getD 3 0))
      = some entries)
    (e : Nat × Nat) (he : e ∈ entries)
    (hviol : data.length <
      4 + 4 * u16be (data.getD 2 0) (data.getD 3 0) + (e.1 + e.2) * 2) :
    duomsgEN.decode_msg_to_blocks data tag = none := by
  unfold duomsgEN.decode_msg_to_blocks
  rw [hent]
  split
  · rfl
  · apply mapM_option_none _ _ e he
    unfold duomsgEN.decodeEntryEN
    rw [if_neg]
    omega

/-- Witness for C8: the counterexample container is rejected by the English
tool's bounds check. -/
theorem C8_witness :
    duomsgEN.decode_msg_to_blocks [0, 10, 0, 1, 0, 0, 0, 5, 0, 0x48] true = none :=
  C8_en_bounds [0, 10, 0, 1, 0, 0, 0, 5, 0, 0x48] true [(0, 5)] (by decide)
    (0, 5) (by decide) (by decide)

/-- Every unit decoded through a mapping emits at least one character. -/
theorem decodeUnit_ne_nil (u2c : List (Nat × Char)) (tag : Bool) (u : Nat) :
    duomsgJP.decodeUnitWithMap u2c tag u ≠ [] := by
  unfold duomsgJP.decodeUnitWithMap
  split
  · cases tag <;> simp [duomsgJP.NL_TAG_000A]
  · split
    · cases tag <;> simp [duomsgJP.NL_TAG_8016]
    · split
      · simp
      · split
        · simp
        · simp [duomsgJP.placeholderU]

/-- C3 as stated is false: the unmapped unit 0x41 is below 0x80, so the
claimed Latin three-way fallback would emit the printable character A, but
the decoder emits the placeholder: its fallback only covers units at or
above 0x80. -/
theorem C3_counterexample :
    duomsgJP.decode_units_with_map [] true [0x41]
        = ['<', 'U', '+', '0', '0', '4', '1', '>'] ∧
    duomsgJP.decode_units_with_map [] true [0x41] ≠ ['A'] := by decide

/-- C3 (amended): for every unmapped, non-newline code unit the mapped
decoder falls back to the shifted Latin rule only when the unit is at or
above 0x80 and the shifted value is ASCII printable; in every other
unmapped case it emits the visible placeholder; and no unit is ever
dropped (each code unit contributes at least one output character). -/
theorem C3_fallback (u2c : List (Nat × Char)) (tag : Bool) (u : Nat)
    (hmap : List.lookup u u2c = none) (h0a : u ≠ 0x0A) (h16 : u ≠ 0x8016) :
    duomsgJP.decode_units_with_map u2c tag [u] =
      (if 0x80 ≤ u ∧ duomsgJP._is_ascii_printable (u - 0x80) = true then
        [Char.ofNat (u - 0x80)]
       else duomsgJP.placeholderU u) ∧
    (∀ us : List Nat,
      us.length ≤ (duomsgJP.decode_units_with_map u2c tag us).length) := by
  constructor
  · have hstep : duomsgJP.decode_units_with_map u2c tag [u]
        = duomsgJP.decodeUnitWithMap u2c tag u := by
      simp [duomsgJP.decode_units_with_map]
    rw [hstep]
    unfold duomsgJP.decodeUnitWithMap
    rw [if_neg (by simpa [duomsgJP.NEWLINE_000A] using h0a),
        if_neg (by simpa [duomsgJP.NEWLINE_8016] using h16), hmap]
  · intro us
    induction us with
    | nil => simp [duomsgJP.decode_units_with_map]
    | cons v rest ih =>
      have hne := decodeUnit_ne_nil u2c tag v
      have hpos : 1 ≤ (duomsgJP.decodeUnitWithMap u2c tag v).length := by
        cases hd : duomsgJP.decodeUnitWithMap u2c tag v with
        | nil => exact absurd hd hne
        | cons x xs => simp
      simp only [duomsgJP.decode_units_with_map, List.length_append,
        List.length_cons]
      omega

/-- Witness for C3: the unmapped unit 0x41 takes the placeholder branch of
the amended fallback rule. -/
theorem C3_witness :
    duomsgJP.decode_units_with_map [] true [0x41]
        = (if 0x80 ≤ 0x41 ∧ duomsgJP._is_ascii_printable (0x41 - 0x80) = true then
            [Char.ofNat (0x41 - 0x80)]
           else duomsgJP.placeholderU 0x41) ∧
    (∀ us : List Nat,
      us.length ≤ (duomsgJP.decode_units_with_map [] true us).length) :=
  C3_fallback [] true 0x41 (by decide) (by decide) (by decide)

/-- C4 as stated is false: with an empty mapping and the configured error
policy, the non-lowercase character A is not stored as its raw codepoint
0x41; the encoder raises and the block fails, because the Latin fallback of
this function covers only lowercase letters. -/
theorem C4_counterexample :
    duomsgJP.encUnitsMap [] ['e', 'r', 'r', 'o', 'r'] 0x8016 ['A'] = none ∧
    duomsgJP.encUnitsMap [] ['e', 'r', 'r', 'o', 'r'] 0x8016 ['A']
      ≠ some [0x41] := by decide

/-- C4 (amended): for an unmapped character that is not a line break, the
Latin fallback applies only to lowercase letters (stored at +0x80); every
other unmapped character goes to the unknown policy: error fails the whole
block, placeholder stores 0x3F, skip drops the character, and any other
policy string stores the raw codepoint. -/
theorem C4_policy (c2u : List (Char × Nat)) (policy : List Char) (d : Nat)
    (c : Char) (hmap : List.lookup c c2u = none) (hnl : c ≠ '\n')
    (hlc : ¬ ('a' ≤ c ∧ c ≤ 'z')) :
    duomsgJP.encUnitsMap c2u policy d [c] =
      (if policy = ['e', 'r', 'r', 'o', 'r'] then none
       else if policy = ['p', 'l', 'a', 'c', 'e', 'h', 'o', 'l', 'd', 'e', 'r'] then
         some [0x3F]
       else if policy = ['s', 'k', 'i', 'p'] then some []
       else some [c.toNat]) ∧
    (∀ c2 : Char, 'a' ≤ c2 → c2 ≤ 'z' → List.lookup c2 c2u = none →
      duomsgJP.encUnitsMap c2u policy d [c2] = some [c2.toNat + 0x80]) := by
  constructor
  · show duomsgJP.encUnitsMapGo c2u policy d 1 [c] = _
    rw [duomsgJP.encUnitsMapGo.eq_3]
    rw [if_neg (by simp [startswith, duomsgJP.NL_TAG_8016]),
        if_neg (by simp [startswith, duomsgJP.NL_TAG_000A]),
        if_neg hnl]
    simp only [hmap]
    rw [if_neg hlc]
    split
    · rfl
    · split
      · simp [duomsgJP.encUnitsMapGo]
      · split
        · simp [duomsgJP.encUnitsMapGo]
        · simp [duomsgJP.encUnitsMapGo]
  · intro c2 ha hz hm2
    show duomsgJP.encUnitsMapGo c2u policy d 1 [c2] = _
    rw [duomsgJP.encUnitsMapGo.eq_3]
    rw [if_neg (by simp [startswith, duomsgJP.NL_TAG_8016]),
        if_neg (by simp [startswith, duomsgJP.NL_TAG_000A]),
        if_neg (by intro h; subst h; exact absurd ha (by decide))]
    simp only [hm2]
    rw [if_pos ⟨ha, hz⟩]
    simp [duomsgJP.encUnitsMapGo]

/-- Witness for C4: the unmapped character A under each policy, and the
lowercase fallback for h. -/
theorem C4_witness :
    (duomsgJP.encUnitsMap [] ['e', 'r', 'r', 'o', 'r'] 0x8016 ['A']
        = (if (['e', 'r', 'r', 'o', 'r'] : List Char) = ['e', 'r', 'r', 'o', 'r'] then none
           else if (['e', 'r', 'r', 'o', 'r'] : List Char)
              = ['p', 'l', 'a', 'c', 'e', 'h', 'o', 'l', 'd', 'e', 'r'] then some [0x3F]
           else if (['e', 'r', 'r', 'o', 'r'] : List Char) = ['s', 'k', 'i', 'p'] then some []
           else some ['A'.toNat])) ∧
    duomsgJP.encUnitsMap [] ['s', 'k', 'i', 'p'] 0x8016 ['h'] = some ['h'.toNat + 0x80] :=
  ⟨(C4_policy [] ['e', 'r', 'r', 'o', 'r'] 0x8016 'A' (by decide) (by decide)
      (by decide)).1,
   (C4_policy [] ['s', 'k', 'i', 'p'] 0x8016 'A' (by decide) (by decide)
      (by decide)).2 'h' (by decide) (by decide) (by decide)⟩

/-- C6: when the parsed binary block count differs from the reference
document's block count, training fails (before any observation) and the
auto-train path persists no mapping artifact. -/
theorem C6_block_count_mismatch (msgData : List Nat) (txtText : List Char)
    (ubs : List (List Nat))
    (hread : duomsgJP._read_all_blocks_units msgData = some ubs)
    (hmis : ubs.length ≠ (duomsgJP.split_txt_into_blocks txtText).length) :
    duomsgJP.learn_mapping_from_pair msgData txtText = none ∧
    duomsgJP.auto_train_if_possible msgData txtText = none := by
  have h1 : duomsgJP.learn_mapping_from_pair msgData txtText = none := by
    unfold duomsgJP.learn_mapping_from_pair
    rw [hread]
    simp [hmis]
  refine ⟨h1, ?_⟩
  unfold duomsgJP.auto_train_if_possible
  rw [h1]
  rfl

/-- Witness for C6: a 3-block binary against a 2-block reference text fails
both training and auto-training. -/
theorem C6_witness :
    duomsgJP._read_all_blocks_units
        [0, 16, 0, 3, 0, 0, 0, 0, 0, 0, 0, 0, 0, 0, 0, 0]
      = some [[], [], []] ∧
    ([[], [], []] : List (List Nat)).length ≠
      (duomsgJP.split_txt_into_blocks
        ['a', '\n', '#', '#', '#', '\n', 'b']).length ∧
    duomsgJP.learn_mapping_from_pair
        [0, 16, 0, 3, 0, 0, 0, 0, 0, 0, 0, 0, 0, 0, 0, 0]
        ['a', '\n', '#', '#', '#', '\n', 'b'] = none ∧
    duomsgJP.auto_train_if_possible
        [0, 16, 0, 3, 0, 0, 0, 0, 0, 0, 0, 0, 0, 0, 0, 0]
        ['a', '\n', '#', '#', '#', '\n', 'b'] = none :=
  ⟨by decide, by decide,
   (C6_block_count_mismatch _ _ [[], [], []] (by decide) (by decide)).1,
   (C6_block_count_mismatch _ _ [[], [], []] (by decide) (by decide)).2⟩

/-- mostCommonGo returns the first-encountered maximal entry of the running
candidate consed onto the remaining counter entries. -/
theorem mostCommonGo_firstMax {α : Type} (l : List (α × Nat)) (q : α × Nat) :
    firstMaxAt (q :: l) (duomsgJP.mostCommonGo q l).1
      (duomsgJP.mostCommonGo q l).2 := by
  induction l generalizing q with
  | nil =>
    refine ⟨by simp [duomsgJP.mostCommonGo], 0, by simp, ?_, by simp⟩
    simp [duomsgJP.mostCommonGo]
  | cons p rest ih =>
    have hstep : duomsgJP.mostCommonGo q (p :: rest)
        = duomsgJP.mostCommonGo (if q.2 < p.2 then p else q) rest := by
      simp [duomsgJP.mostCommonGo]
    rw [hstep]
    by_cases hqp : q.2 < p.2
    · rw [if_pos hqp]
      obtain ⟨hmax, i, h, hget, hpre⟩ := ih p
      have hp_le : p.2 ≤ (duomsgJP.mostCommonGo p rest).2 :=
        hmax p (List.mem_cons_self _ _)
      refine ⟨?_, i + 1, by simpa using Nat.succ_lt_succ h, ?_, ?_⟩
      · intro x hx
        rcases List.mem_cons.mp hx with hx | hx
        · subst hx; omega
        · exact hmax x hx
      · simpa using hget
      · intro x hx
        rw [List.take_succ_cons] at hx
        rcases List.mem_cons.mp hx with hx | hx
        · subst hx; omega
        · exact hpre x hx
    · rw [if_neg hqp]
      obtain ⟨hmax, i, h, hget, hpre⟩ := ih q
      have hq_le : q.2 ≤ (duomsgJP.mostCommonGo q rest).2 :=
        hmax q (List.mem_cons_self _ _)
      have hmax2 : ∀ x ∈ q :: p :: rest, x.2 ≤ (duomsgJP.mostCommonGo q rest).2 := by
        intro x hx
        rcases List.mem_cons.mp hx with hx | hx
        · subst hx; exact hq_le
        rcases List.mem_cons.mp hx with hx | hx
        · subst hx; omega
        · exact hmax x (List.mem_cons_of_mem _ hx)
      cases i with
      | zero =>
        refine ⟨hmax2, 0, by simp, ?_, by simp⟩
        simpa using hget
      | succ j =>
        have hj : j < rest.length := by simpa using h
        refine ⟨hmax2, j + 2, by simpa using Nat.succ_lt_succ (Nat.succ_lt_succ hj),
          ?_, ?_⟩
        · simpa using hget
        · intro x hx
          rw [List.take_succ_cons, List.take_succ_cons] at hx
          have hqv : q.2 < (duomsgJP.mostCommonGo q rest).2 := by
            have := hpre q (by simp [List.take_succ_cons])
            exact this
          rcases List.mem_cons.mp hx with hx | hx
          · subst hx; exact hqv
          rcases List.mem_cons.mp hx with hx | hx
          · subst hx; omega
          · have := hpre x (by rw [List.take_succ_cons]; exact List.mem_cons_of_mem _ hx)
            exact this

/-- C9: training is a pure function of its inputs (two runs agree), and in
both directions the most_common(1) resolution picks, for each key, the
first-encountered entry among those of maximal count. -/
theorem C9_determinism :
    (∀ (msgData : List Nat) (txtText : List Char),
      duomsgJP.learn_mapping_from_pair msgData txtText
        = duomsgJP.learn_mapping_from_pair msgData txtText) ∧
    (∀ (l : List (Char × Nat)) (k : Char) (v : Nat),
      duomsgJP.mostCommon1 l = some (k, v) → firstMaxAt l k v) ∧
    (∀ (l : List (Nat × Nat)) (k : Nat) (v : Nat),
      duomsgJP.mostCommon1 l = some (k, v) → firstMaxAt l k v) := by
  refine ⟨fun _ _ => rfl, ?_, ?_⟩
  · intro l k v h
    cases l with
    | nil => exact Option.noConfusion h
    | cons p rest =>
      simp only [duomsgJP.mostCommon1, Option.some_inj] at h
      have hfm := mostCommonGo_firstMax rest p
      rw [h] at hfm
      exact hfm
  · intro l k v h
    cases l with
    | nil => exact Option.noConfusion h
    | cons p rest =>
      simp only [duomsgJP.mostCommon1, Option.some_inj] at h
      have hfm := mostCommonGo_firstMax rest p
      rw [h] at hfm
      exact hfm

/-- Witness for C9: a two-entry counter with tied counts resolves to the
first-encountered key. -/
theorem C9_witness :
    duomsgJP.learn_mapping_from_pair [0, 8, 0, 1, 0, 0, 0, 1, 0, 0x48] ['H']
        = duomsgJP.learn_mapping_from_pair [0, 8, 0, 1, 0, 0, 0, 1, 0, 0x48] ['H'] ∧
    firstMaxAt [('a', 2), ('b', 2)] 'a' 2 ∧
    firstMaxAt [(5, 1), (7, 3), (9, 3)] 7 3 :=
  ⟨C9_determinism.1 _ _,
   C9_determinism.2.1 [('a', 2), ('b', 2)] 'a' 2 (by decide),
   C9_determinism.2.2 [(5, 1), (7, 3), (9, 3)] 7 3 (by decide)⟩

/-- The head of a surviving dropWhile suffix fails the predicate. -/
theorem dropWhile_head_false {α : Type} (p : α → Bool) :
    ∀ (l : List α) (x : α) (rest : List α),
      l.dropWhile p = x :: rest → p x = false := by
  intro l
  induction l with
  | nil => intro x rest h; exact absurd h (by simp)
  | cons a l2 ih =>
    intro x rest h
    rw [List.dropWhile_cons] at h
    split at h
    · exact ih x rest h
    · cases h
      rename_i hpa
      simpa using hpa

/-- bumpChar preserves the no-line-break-key invariant of a counter. -/
theorem bumpChar_pres (l : List (Char × Nat)) (ch : Char)
    (hl : ∀ q ∈ l, q.1 ≠ '\n') (hch : ch ≠ '\n') :
    ∀ q ∈ duomsgJP.bumpChar l ch, q.1 ≠ '\n' := by
  induction l with
  | nil =>
    intro q hq
    simp only [duomsgJP.bumpChar, List.mem_singleton] at hq
    subst hq; exact hch
  | cons a rest ih =>
    intro q hq
    rw [duomsgJP.bumpChar] at hq
    split at hq
    · rcases List.mem_cons.mp hq with hq | hq
      · subst hq; exact hl a (List.mem_cons_self _ _)
      · exact hl q (List.mem_cons_of_mem _ hq)
    · rcases List.mem_cons.mp hq with hq | hq
      · subst hq; exact hl a (List.mem_cons_self _ _)
      · exact ih (fun x hx => hl x (List.mem_cons_of_mem _ hx)) q hq

/-- bumpCounts preserves the invariant that no unit key is a newline code
and no counter key is the line break. -/
theorem bumpCounts_pres (counts : List (Nat × List (Char × Nat))) (u : Nat)
    (ch : Char)
    (h : ∀ p ∈ counts, (p.1 ≠ 0x0A ∧ p.1 ≠ 0x8016) ∧ ∀ q ∈ p.2, q.1 ≠ '\n')
    (hu : u ≠ 0x0A ∧ u ≠ 0x8016) (hch : ch ≠ '\n') :
    ∀ p ∈ duomsgJP.bumpCounts counts u ch,
      (p.1 ≠ 0x0A ∧ p.1 ≠ 0x8016) ∧ ∀ q ∈ p.2, q.1 ≠ '\n' := by
  induction counts with
  | nil =>
    intro p hp
    simp only [duomsgJP.bumpCounts, List.mem_singleton] at hp
    subst hp
    exact ⟨hu, by
      intro q hq
      simp only [List.mem_singleton] at hq
      subst hq; exact hch⟩
  | cons a rest ih =>
    intro p hp
    rw [duomsgJP.bumpCounts] at hp
    split at hp
    · rcases List.mem_cons.mp hp with hp | hp
      · subst hp
        refine ⟨(h a (List.mem_cons_self _ _)).1, ?_⟩
        exact bumpChar_pres a.2 ch (h a (List.mem_cons_self _ _)).2 hch
      · exact h p (List.mem_cons_of_mem _ hp)
    · rcases List.mem_cons.mp hp with hp | hp
      · subst hp; exact h a (List.mem_cons_self _ _)
      · exact ih (fun x hx => h x (List.mem_cons_of_mem _ hx)) p hp

/-- The per-block alignment walk preserves the newline-free key invariant:
newline-coded units are skipped and the recorded reference character is
taken after skipping line breaks. -/
theorem observeBlock_pres (units : List Nat) :
    ∀ (ref : List Char) (counts : List (Nat × List (Char × Nat))),
      (∀ p ∈ counts, (p.1 ≠ 0x0A ∧ p.1 ≠ 0x8016) ∧ ∀ q ∈ p.2, q.1 ≠ '\n') →
      ∀ p ∈ duomsgJP.observeBlock ref units counts,
        (p.1 ≠ 0x0A ∧ p.1 ≠ 0x8016) ∧ ∀ q ∈ p.2, q.1 ≠ '\n' := by
  induction units with
  | nil => intro ref counts h; simpa [duomsgJP.observeBlock] using h
  | cons u rest ih =>
    intro ref counts h
    rw [duomsgJP.observeBlock]
    split
    · split
      · exact ih ref.tail counts h
      · exact ih ref counts h
    · rename_i hnotnl
      split
      · exact h
      · rename_i ch ref2 hdrop
        have hch : ch ≠ '\n' := by
          have := dropWhile_head_false (fun c => c == '\n') ref ch ref2 hdrop
          simpa using this
        have hu : u ≠ 0x0A ∧ u ≠ 0x8016 := by
          constructor <;> {intro hx; exact hnotnl (by simp [hx, duomsgJP.NEWLINE_000A, duomsgJP.NEWLINE_8016])}
        exact ih ref2 _ (bumpCounts_pres counts u ch h hu hch)

/-- bumpRevBy does not change which keys a reverse counter can have beyond
adding the given unit key. -/
theorem bumpRev_pres (rev : List (Char × List (Nat × Nat))) (ch : Char)
    (u n : Nat) (h : ∀ r ∈ rev, r.1 ≠ '\n') (hch : ch ≠ '\n') :
    ∀ r ∈ duomsgJP.bumpRev rev ch u n, r.1 ≠ '\n' := by
  induction rev with
  | nil =>
    intro r hr
    simp only [duomsgJP.bumpRev, List.mem_singleton] at hr
    subst hr; exact hch
  | cons a rest ih =>
    intro r hr
    rw [duomsgJP.bumpRev] at hr
    split at hr
    · rcases List.mem_cons.mp hr with hr | hr
      · subst hr; exact h a (List.mem_cons_self _ _)
      · exact h r (List.mem_cons_of_mem _ hr)
    · rcases List.mem_cons.mp hr with hr | hr
      · subst hr; exact h a (List.mem_cons_self _ _)
      · exact ih (fun x hx => h x (List.mem_cons_of_mem _ hx)) r hr

/-- The reverse-count accumulation only creates keys for characters that
occur as counter keys, hence never the line break. -/
theorem revCountsOf_pres (counts : List (Nat × List (Char × Nat)))
    (h : ∀ p ∈ counts, (p.1 ≠ 0x0A ∧ p.1 ≠ 0x8016) ∧ ∀ q ∈ p.2, q.1 ≠ '\n') :
    ∀ r ∈ duomsgJP.revCountsOf counts, r.1 ≠ '\n' := by
  unfold duomsgJP.revCountsOf
  have main : ∀ (cs : List (Nat × List (Char × Nat)))
      (acc : List (Char × List (Nat × Nat))),
      (∀ p ∈ cs, (p.1 ≠ 0x0A ∧ p.1 ≠ 0x8016) ∧ ∀ q ∈ p.2, q.1 ≠ '\n') →
      (∀ r ∈ acc, r.1 ≠ '\n') →
      ∀ r ∈ cs.foldl
        (fun acc2 p => p.2.foldl (fun a3 q => duomsgJP.bumpRev a3 q.1 p.1 q.2) acc2)
        acc, r.1 ≠ '\n' := by
    intro cs
    induction cs with
    | nil => intro acc _ hacc; simpa using hacc
    | cons p rest ih =>
      intro acc hcs hacc
      rw [List.foldl_cons]
      apply ih _ (fun x hx => hcs x (List.mem_cons_of_mem _ hx))
      have hinner : ∀ (ctr : List (Char × Nat)) (acc2 : List (Char × List (Nat × Nat))),
          (∀ q ∈ ctr, q.1 ≠ '\n') → (∀ r ∈ acc2, r.1 ≠ '\n') →
          ∀ r ∈ ctr.foldl (fun a3 q => duomsgJP.bumpRev a3 q.1 p.1 q.2) acc2,
            r.1 ≠ '\n' := by
        intro ctr
        induction ctr with
        | nil => intro acc2 _ hacc2; simpa using hacc2
        | cons q qs ihq =>
          intro acc2 hctr hacc2
          rw [List.foldl_cons]
          apply ihq _ (fun x hx => hctr x (List.mem_cons_of_mem _ hx))
          exact bumpRev_pres acc2 q.1 p.1 q.2 hacc2 (hctr q (List.mem_cons_self _ _))
      exact hinner p.2 acc (hcs p (List.mem_cons_self _ _)).2 hacc
  exact main counts [] h (by simp)

/-- C10: a successfully learned mapping never contains the newline codes
0x000A or 0x8016 as unit keys, nor the line break as a glyph key, so fixed
newline handling can never be shadowed by the learned tables. -/
theorem C10_no_newline_keys (msgData : List Nat) (txtText : List Char)
    (u2c : List (Nat × Char)) (c2u : List (Char × Nat))
    (h : duomsgJP.learn_mapping_from_pair msgData txtText = some (u2c, c2u)) :
    (∀ p ∈ u2c, p.1 ≠ 0x0A ∧ p.1 ≠ 0x8016) ∧ ∀ q ∈ c2u, q.1 ≠ '\n' := by
  unfold duomsgJP.learn_mapping_from_pair at h
  cases hread : duomsgJP._read_all_blocks_units msgData with
  | none => rw [hread] at h; simp at h
  | some ubs =>
    rw [hread] at h
    simp only [Option.bind_eq_bind, Option.some_bind] at h
    split at h
    · exact Option.noConfusion h
    · simp only [Option.some_inj, Prod.mk.injEq] at h
      obtain ⟨hu, hc⟩ := h
      have hcounts : ∀ p ∈ (ubs.zip (duomsgJP.split_txt_into_blocks txtText)).foldl
          (fun cs pr => duomsgJP.observeBlock
            (duomsgJP._strip_nl_tags_keep_newline pr.2) pr.1 cs) [],
          (p.1 ≠ 0x0A ∧ p.1 ≠ 0x8016) ∧ ∀ q ∈ p.2, q.1 ≠ '\n' := by
        have main : ∀ (prs : List (List Nat × List Char))
            (acc : List (Nat × List (Char × Nat))),
            (∀ p ∈ acc, (p.1 ≠ 0x0A ∧ p.1 ≠ 0x8016) ∧ ∀ q ∈ p.2, q.1 ≠ '\n') →
            ∀ p ∈ prs.foldl (fun cs pr => duomsgJP.observeBlock
              (duomsgJP._strip_nl_tags_keep_newline pr.2) pr.1 cs) acc,
              (p.1 ≠ 0x0A ∧ p.1 ≠ 0x8016) ∧ ∀ q ∈ p.2, q.1 ≠ '\n' := by
          intro prs
          induction prs with
          | nil => intro acc hacc; simpa using hacc
          | cons pr rest ih =>
            intro acc hacc
            rw [List.foldl_cons]
            exact ih _ (observeBlock_pres pr.1 _ acc hacc)
        exact main _ [] (by simp)
      constructor
      · intro p hp
        rw [← hu] at hp
        obtain ⟨a, ha, hfa⟩ := List.mem_filterMap.mp hp
        cases hmc : duomsgJP.mostCommon1 a.2 with
        | none => rw [hmc] at hfa; exact Option.noConfusion hfa
        | some q =>
          rw [hmc] at hfa
          simp only [Option.map_some', Option.some_inj] at hfa
          subst hfa
          exact (hcounts a ha).1
      · intro q hq
        rw [← hc] at hq
        obtain ⟨a, ha, hfa⟩ := List.mem_filterMap.mp hq
        cases hmc : duomsgJP.mostCommon1 a.2 with
        | none => rw [hmc] at hfa; exact Option.noConfusion hfa
        | some r =>
          rw [hmc] at hfa
          simp only [Option.map_some', Option.some_inj] at hfa
          subst hfa
          exact revCountsOf_pres _ hcounts a ha

/-- Witness for C10: the mapping learned from a one-unit, one-character pair
has no newline keys. -/
theorem C10_witness :
    duomsgJP.learn_mapping_from_pair [0, 8, 0, 1, 0, 0, 0, 1, 0, 0x48] ['H']
        = some ([(0x48, 'H')], [('H', 0x48)]) ∧
    (∀ p ∈ [((0x48 : Nat), 'H')], p.1 ≠ 0x0A ∧ p.1 ≠ 0x8016) ∧
    (∀ q ∈ [('H', (0x48 : Nat))], q.1 ≠ '\n') :=
  ⟨by decide,
   (C10_no_newline_keys [0, 8, 0, 1, 0, 0, 0, 1, 0, 0x48] ['H'] [(0x48, 'H')]
      [('H', 0x48)] (by decide)).1,
   (C10_no_newline_keys [0, 8, 0, 1, 0, 0, 0, 1, 0, 0x48] ['H'] [(0x48, 'H')]
      [('H', 0x48)] (by decide)).2⟩

theorem splitNL_ne_nil (s : List Char) : splitNL s ≠ [] := by
  cases s with
  | nil => simp [splitNL]
  | cons c rest =>
    rw [splitNL]
    split
    · simp
    · split
      · simp
      · simp

/-- Joining the line-feed split of a text restores the text. -/
theorem pyJoin_splitNL (b : List Char) : pyJoin ['\n'] (splitNL b) = b := by
  induction b with
  | nil => rfl
  | cons c rest ih =>
    rw [splitNL]
    cases hrest : splitNL rest with
    | nil => exact absurd hrest (splitNL_ne_nil rest)
    | cons l ls =>
      rw [hrest] at ih
      by_cases hc : c = '\n'
      · rw [if_pos hc]
        subst hc
        show [] ++ ['\n'] ++ pyJoin ['\n'] (l :: ls) = '\n' :: rest
        rw [ih]
        simp
      · rw [if_neg hc]
        cases ls with
        | nil =>
          show c :: l = c :: rest
          have hl : l = rest := ih
          rw [hl]
        | cons m ls2 =>
          show (c :: l) ++ ['\n'] ++ pyJoin ['\n'] (m :: ls2) = c :: rest
          have hl : l ++ ['\n'] ++ pyJoin ['\n'] (m :: ls2) = rest := ih
          rw [← hl]
          simp

/-- Lines produced by splitNL contain no line-terminator characters, when
the source text's only terminators are line feeds. -/
theorem splitNL_no_breaks (b : List Char)
    (hb : ∀ c ∈ b, pyIsLineBreak c = true → c = '\n') :
    ∀ l ∈ splitNL b, ∀ c ∈ l, pyIsLineBreak c = false := by
  induction b with
  | nil =>
    intro l hl
    simp only [splitNL, List.mem_singleton] at hl
    subst hl
    simp
  | cons c rest ih =>
    have hrest : ∀ x ∈ rest, pyIsLineBreak x = true → x = '\n' :=
      fun x hx => hb x (List.mem_cons_of_mem _ hx)
    intro l hl
    rw [splitNL] at hl
    by_cases hc : c = '\n'
    · rw [if_pos hc] at hl
      rcases List.mem_cons.mp hl with hl | hl
      · subst hl; simp
      · exact ih hrest l hl
    · rw [if_neg hc] at hl
      cases hsp : splitNL rest with
      | nil => exact absurd hsp (splitNL_ne_nil rest)
      | cons m ls =>
        rw [hsp] at hl
        have hcnb : pyIsLineBreak c = false := by
          cases hx : pyIsLineBreak c with
          | false => rfl
          | true => exact absurd (hb c (List.mem_cons_self _ _) hx) hc
        rcases List.mem_cons.mp hl with hl | hl
        · subst hl
          intro x hx
          rcases List.mem_cons.mp hx with hx | hx
          · subst hx; exact hcnb
          · exact ih hrest m (by rw [hsp]; exact List.mem_cons_self _ _) x hx
        · exact ih hrest l (by rw [hsp]; exact List.mem_cons_of_mem _ hl)

set_option maxHeartbeats 1600000 in
/-- Scanning a break-free line followed by a line feed: the accumulated
prefix plus the line becomes one output line and scanning continues. -/
theorem splitlinesGo_line (line : List Char)
    (hline : ∀ c ∈ line, pyIsLineBreak c = false) :
    ∀ (acc rest : List Char),
      splitlinesGo acc (line ++ '\n' :: rest)
        = (acc.reverse ++ line) :: splitlinesGo [] rest := by
  induction line with
  | nil =>
    intro acc rest
    show splitlinesGo acc ('\n' :: rest) = _
    rw [splitlinesGo.eq_3]
    · rw [if_pos (by decide)]
      simp
    · simp
  | cons c line2 ih =>
    intro acc rest
    have hc : pyIsLineBreak c = false := hline c (List.mem_cons_self _ _)
    have hcr : c ≠ '\r' := by
      intro h
      subst h
      exact absurd hc (by decide)
    show splitlinesGo acc (c :: (line2 ++ '\n' :: rest)) = _
    rw [splitlinesGo.eq_3]
    · rw [if_neg (by simp [hc])]
      rw [ih (fun x hx => hline x (List.mem_cons_of_mem _ hx)) (c :: acc) rest]
      simp
    · intro r h1 h2
      exact hcr h1

/-- Scanning the line-feed join of break-free lines, terminated by one
line feed, returns exactly those lines. -/
theorem splitlinesGo_lines (ls : List (List Char)) (hne : ls ≠ [])
    (hls : ∀ l ∈ ls, ∀ c ∈ l, pyIsLineBreak c = false) :
    splitlinesGo [] (pyJoin ['\n'] ls ++ ['\n']) = ls := by
  induction ls with
  | nil => exact absurd rfl hne
  | cons l ls2 ih =>
    cases ls2 with
    | nil =>
      show splitlinesGo [] (l ++ '\n' :: []) = [l]
      rw [splitlinesGo_line l (hls l (List.mem_cons_self _ _)) [] []]
      rfl
    | cons m ls3 =>
      have hstep : pyJoin ['\n'] (l :: m :: ls3) ++ ['\n']
          = l ++ '\n' :: (pyJoin ['\n'] (m :: ls3) ++ ['\n']) := by
        show (l ++ ['\n'] ++ pyJoin ['\n'] (m :: ls3)) ++ ['\n'] = _
        simp
      rw [hstep, splitlinesGo_line l (hls l (List.mem_cons_self _ _))]
      rw [ih (by simp) (fun x hx => hls x (List.mem_cons_of_mem _ hx))]
      simp

/-- rstrip with a line feed is the identity on texts not ending in one. -/
theorem rstripNL_id (b : List Char) (h : b.getLast? ≠ some '\n') :
    rstripNL b = b := by
  unfold rstripNL
  cases hb : b.reverse with
  | nil =>
    have : b = [] := by simpa using congrArg List.reverse hb
    subst this; rfl
  | cons x xs =>
    have hx : b.getLast? = some x := by
      rw [← List.head?_reverse, hb]; rfl
    have hxne : ¬ (x == '\n') = true := by
      intro hcontra
      exact h (by rw [hx]; simp [beq_iff_eq] at hcontra; rw [hcontra])
    rw [@List.dropWhile_cons_of_neg Char (fun c => c == '\n') x xs hxne,
      ← hb, List.reverse_reverse]

/-- pyJoin distributes over list concatenation of non-empty parts. -/
theorem pyJoin_append (sep : List Char) (xs ys : List (List Char))
    (hx : xs ≠ []) (hy : ys ≠ []) :
    pyJoin sep (xs ++ ys) = pyJoin sep xs ++ sep ++ pyJoin sep ys := by
  induction xs with
  | nil => exact absurd rfl hx
  | cons x xs2 ih =>
    cases xs2 with
    | nil =>
      cases ys with
      | nil => exact absurd rfl hy
      | cons y ys2 => rfl
    | cons x2 xs3 =>
      show x ++ sep ++ pyJoin sep ((x2 :: xs3) ++ ys) = _
      rw [ih (by simp)]
      show _ = (x ++ sep ++ pyJoin sep (x2 :: xs3)) ++ sep ++ pyJoin sep ys
      simp

/-- Folding the splitter step over separator-free lines only accumulates
them into the current block. -/
theorem fold_nonsep (ls : List (List Char)) :
    ∀ (parts cur : List (List Char)),
      (∀ l ∈ ls, pyStrip l ≠ duomsgEN.BLOCK_SEPARATOR) →
      ls.foldl duomsgEN.splitStep (parts, cur) = (parts, cur ++ ls) := by
  induction ls with
  | nil => intro parts cur _; simp
  | cons l ls2 ih =>
    intro parts cur hls
    rw [List.foldl_cons]
    have hstep : duomsgEN.splitStep (parts, cur) l = (parts, cur ++ [l]) := by
      unfold duomsgEN.splitStep
      rw [if_neg (hls l (List.mem_cons_self _ _))]
    rw [hstep, ih parts (cur ++ [l]) (fun x hx => hls x (List.mem_cons_of_mem _ hx))]
    simp

/-- The flattened line list of a non-empty block list is non-empty. -/
theorem ALines_ne_nil (bs : List (List Char)) (h : bs ≠ []) :
    (bs.map (fun b => splitNL b ++ [duomsgEN.BLOCK_SEPARATOR])).flatten ≠ [] := by
  cases bs with
  | nil => exact absurd rfl h
  | cons b bs2 => simp

/-- pyJoin on a cons with non-empty tail splits off the head. -/
theorem pyJoin_cons_ne (sep : List Char) (x : List Char)
    (xs : List (List Char)) (h : xs ≠ []) :
    pyJoin sep (x :: xs) = x ++ sep ++ pyJoin sep xs := by
  cases xs with
  | nil => exact absurd rfl h
  | cons y ys => rfl

/-- Folding the splitter step over the line list of the blocks closes one
block per separator line, recovering exactly the block texts. -/
theorem fold_ALines (bs : List (List Char)) :
    ∀ (parts : List (List Char)),
      (∀ b ∈ bs, ∀ l ∈ splitNL b, pyStrip l ≠ duomsgEN.BLOCK_SEPARATOR) →
      ((bs.map (fun b => splitNL b ++ [duomsgEN.BLOCK_SEPARATOR])).flatten).foldl
          duomsgEN.splitStep (parts, [])
        = (parts ++ bs, []) := by
  induction bs with
  | nil => intro parts _; simp
  | cons b bs2 ih =>
    intro parts hsep
    rw [List.map_cons, List.flatten_cons, List.append_assoc, List.foldl_append]
    rw [fold_nonsep (splitNL b) parts [] (hsep b (List.mem_cons_self _ _))]
    rw [List.foldl_append]
    have hone : ([duomsgEN.BLOCK_SEPARATOR] : List (List Char)).foldl
        duomsgEN.splitStep (parts, [] ++ splitNL b) = (parts ++ [b], []) := by
      rw [List.foldl_cons, List.foldl_nil]
      unfold duomsgEN.splitStep
      rw [if_pos (by decide)]
      simp [pyJoin_splitNL]
    rw [hone, ih (parts ++ [b]) (fun x hx => hsep x (List.mem_cons_of_mem _ hx))]
    simp

/-- The joined document is the line-feed join of all block lines and
separator lines, terminated by one line feed. -/
theorem make_txt_decomp (bs : List (List Char)) (hne : bs ≠ [])
    (hlast : ∀ b ∈ bs, b.getLast? ≠ some '\n') :
    duomsgEN.make_txt_from_blocks bs
      = pyJoin ['\n']
          ((bs.map (fun b => splitNL b ++ [duomsgEN.BLOCK_SEPARATOR])).flatten)
        ++ ['\n'] := by
  induction bs with
  | nil => exact absurd rfl hne
  | cons b bs2 ih =>
    have hb : rstripNL b = b := rstripNL_id b (hlast b (List.mem_cons_self _ _))
    cases bs2 with
    | nil =>
      unfold duomsgEN.make_txt_from_blocks
      rw [List.map_cons, List.map_nil, List.map_cons, List.map_nil,
        List.flatten_cons, List.flatten_nil, List.append_nil]
      rw [pyJoin_append ['\n'] (splitNL b) [duomsgEN.BLOCK_SEPARATOR]
        (splitNL_ne_nil b) (by simp)]
      have hpj : pyJoin ('\n' :: duomsgEN.BLOCK_SEPARATOR ++ ['\n'])
          [rstripNL b] = rstripNL b := rfl
      have hsep1 : pyJoin ['\n'] [duomsgEN.BLOCK_SEPARATOR]
          = duomsgEN.BLOCK_SEPARATOR := rfl
      rw [hpj, hb, pyJoin_splitNL, hsep1]
      simp
    | cons b2 bs3 =>
      have ih2 := ih (by simp) (fun x hx => hlast x (List.mem_cons_of_mem _ hx))
      unfold duomsgEN.make_txt_from_blocks at ih2 ⊢
      rw [List.map_cons, pyJoin_cons_ne _ _ _ (by simp)]
      rw [List.map_cons (f := fun b => splitNL b ++ [duomsgEN.BLOCK_SEPARATOR]),
        List.flatten_cons]
      rw [pyJoin_append ['\n'] (splitNL b ++ [duomsgEN.BLOCK_SEPARATOR])
        (((b2 :: bs3).map (fun b => splitNL b ++ [duomsgEN.BLOCK_SEPARATOR])).flatten)
        (by simp) (ALines_ne_nil _ (by simp))]
      rw [pyJoin_append ['\n'] (splitNL b) [duomsgEN.BLOCK_SEPARATOR]
        (splitNL_ne_nil b) (by simp)]
      rw [pyJoin_splitNL, hb]
      have hsep1 : pyJoin ['\n'] [duomsgEN.BLOCK_SEPARATOR]
          = duomsgEN.BLOCK_SEPARATOR := rfl
      rw [hsep1]
      simp only [List.append_assoc, List.cons_append, List.nil_append] at ih2 ⊢
      rw [← ih2]

theorem mem_of_getLast?_eq {α : Type} :
    ∀ (l : List α) (x : α), l.getLast? = some x → x ∈ l := by
  intro l
  induction l with
  | nil => intro x h; exact absurd h (by simp)
  | cons a rest ih =>
    intro x h
    cases rest with
    | nil =>
      simp only [List.getLast?_singleton, Option.some_inj] at h
      subst h
      exact List.mem_singleton_self a
    | cons b r =>
      rw [List.getLast?_cons_cons] at h
      exact List.mem_cons_of_mem _ (ih x h)

/-- C7 as stated is false: for the single non-empty block consisting of the
letter a followed by a line feed (which contains no separator line), the
join strips the trailing line feed, so splitting returns the stripped
block, not the original. -/
theorem C7_counterexample :
    duomsgEN.split_txt_into_blocks (duomsgEN.make_txt_from_blocks [['a', '\n']])
        = [['a']] ∧
    duomsgEN.split_txt_into_blocks (duomsgEN.make_txt_from_blocks [['a', '\n']])
        ≠ [['a', '\n']] := by decide

/-- C7 (amended): splitting the joined document returns exactly the block
list, for every non-empty list of non-empty blocks that do not end in a
line feed, whose only line-terminator characters are line feeds, and none
of whose lines strips to the separator token. -/
theorem C7_split_join (bs : List (List Char)) (hne : bs ≠ [])
    (hblocks : ∀ b ∈ bs, b ≠ [] ∧ b.getLast? ≠ some '\n' ∧
      (∀ c ∈ b, pyIsLineBreak c = true → c = '\n') ∧
      (∀ l ∈ splitNL b, pyStrip l ≠ duomsgEN.BLOCK_SEPARATOR)) :
    duomsgEN.split_txt_into_blocks (duomsgEN.make_txt_from_blocks bs) = bs := by
  have hnb : ∀ l ∈ (bs.map (fun b => splitNL b ++ [duomsgEN.BLOCK_SEPARATOR])).flatten,
      ∀ c ∈ l, pyIsLineBreak c = false := by
    intro l hl
    rw [List.mem_flatten] at hl
    obtain ⟨part, hpart, hlp⟩ := hl
    rw [List.mem_map] at hpart
    obtain ⟨b, hbndl, hpeq⟩ := hpart
    subst hpeq
    rcases List.mem_append.mp hlp with h | h
    · exact splitNL_no_breaks b (hblocks b hbndl).2.2.1 l h
    · simp only [List.mem_singleton] at h
      subst h
      decide
  have hdecomp := make_txt_decomp bs hne (fun b hb => (hblocks b hb).2.1)
  have hsl : splitlines (duomsgEN.make_txt_from_blocks bs)
      = (bs.map (fun b => splitNL b ++ [duomsgEN.BLOCK_SEPARATOR])).flatten := by
    rw [hdecomp]
    exact splitlinesGo_lines _ (ALines_ne_nil bs hne) hnb
  have hfold := fold_ALines bs [] (fun b hb => (hblocks b hb).2.2.2)
  have hlast : ¬ (bs.getLast? = some ([] : List Char)) := by
    intro hx
    exact (hblocks [] (mem_of_getLast?_eq bs [] hx)).1 rfl
  have hbe : bs.isEmpty = false := by
    cases bs with
    | nil => exact absurd rfl hne
    | cons x xs => rfl
  unfold duomsgEN.split_txt_into_blocks
  rw [hsl, hfold]
  simp [hbe, hlast]

/-- Witness for C7: two plain blocks round-trip through join and split. -/
theorem C7_witness :
    duomsgEN.split_txt_into_blocks
        (duomsgEN.make_txt_from_blocks [['H', 'i'], ['y', 'o']])
      = [['H', 'i'], ['y', 'o']] :=
  C7_split_join [['H', 'i'], ['y', 'o']] (by decide) (by decide)
